import Mathlib

/-!
Verification of the DireitoNews feed-ingestion core.

Shallow embedding of the repository's Python sources:
  * `src/scraper.py` — ingestion planner (watermark filter), executor
    (duplicate check, thumbnail request, insert, counters) and watermark
    update, plus the image-resolution strategy chain;
  * `src/date_utils.py` — Portuguese→English date normalization and the
    stdlib collaborator `email.utils.parsedate_to_datetime` it calls.

Instants are modelled as `Int` (UTC timestamps); machine strings as
`String`/`List Char`; Python `None` as `Option.none`; fallible collaborator
calls as explicit oracles or `Option`/`Except` results.
-/

set_option maxHeartbeats 1000000

namespace DireitoNews

/-- Python truthiness of an optional string: `None` and `""` are falsy.
Models `if link_val:` and `if image_url:` in `scraper.py`. -/
def truthyStr : Option String → Bool
  | none => false
  | some s => !(s == "")

/-- Python truthiness of the optional `news_id` row id: `None` and `0` are
falsy. Models `if not news_id:` in `scraper.py` line 400. -/
def truthyId : Option Nat → Bool
  | none => false
  | some n => !(n == 0)

/-- A scraped feed item (the `noticia` dict built in `scrape_rss`).
`published` is the UTC instant, `none` when the value is not a `datetime`
(the planning loop re-checks with `isinstance`). -/
structure Noticia where
  title : Option String
  link : Option String
  published : Option Int
  image_url : Option String
  deriving Repr, DecidableEq

/-- A row of the `article` table, as assembled by the insert call in
`scraper.py` lines 434-441. `published` models the ISO-8601 string through
the instant it denotes (the encoding is injective on instants). -/
structure Article where
  news_id : Option Nat
  rss_url : String
  title : Option String
  link : Option String
  thumbnail_url : Option String
  published : Option Int
  deriving Repr, DecidableEq

/-! ## IngestionPlanner: scraper.py lines 382-392

    The loop computes `max_published` over all scraped entries that carry a
    `datetime`, and collects in `to_insert` those strictly newer than the
    stored `last_article_dt` (all of them when it is `None`). -/

/-- One pass of the planning loop; accumulates the running maximum and the
selection, preserving the source's order of appends. -/
def planAux (w : Option Int) (acc : Option Int) : List Noticia → Option Int × List Noticia
  | [] => (acc, [])
  | n :: ns =>
    match n.published with
    | none => planAux w acc ns
    | some pub =>
      let acc2 : Option Int :=
        match acc with
        | none => some pub
        | some m => if m < pub then some pub else some m
      let rest := planAux w acc2 ns
      let sel : Bool :=
        match w with
        | none => true
        | some wv => decide (wv < pub)
      (rest.1, if sel then n :: rest.2 else rest.2)

/-- The planner: from the stored watermark and the scraped items, the pair
`(max_published, to_insert)` of `scraper.py` lines 382-392. -/
def plan (w : Option Int) (ns : List Noticia) : Option Int × List Noticia :=
  planAux w none ns

/-- Watermark update, `scraper.py` lines 458-464: write `max_published` when
it exists and strictly exceeds the stored value (a `datetime` is always
truthy in Python 3). -/
def updateLastArticle (w maxp : Option Int) : Option Int :=
  match maxp with
  | none => w
  | some m =>
    match w with
    | none => some m
    | some a => if a < m then some m else some a

/-! ## IngestionExecutor: scraper.py lines 394-456 -/

/-- External collaborators of the executor: thumbnail derivation
(`create_and_upload_thumbnail`, returns `None` on any failure) and the
outcome of the `article` insert call (`false` covers both an empty-data
response and a raised exception: in either case the failure counter is
incremented and no row is created). -/
structure Oracles where
  thumb : String → Option String
  insertOk : Article → Bool

/-- Mutable state threaded through the insert loop: the three counters, the
`article` table contents, and the rows successfully inserted this run (in
order). -/
structure ExecState where
  inserted : Nat
  dup_skipped : Nat
  failures : Nat
  table : List Article
  insertedArticles : List Article
  deriving Repr, DecidableEq

/-- The duplicate-link query, `scraper.py` line 424:
`select("id").eq("link", link_val)` is non-empty. -/
def linkExists (table : List Article) (l : Option String) : Bool :=
  table.any (fun a => a.link == l)

/-- The record assembled by the insert call (`scraper.py` lines 434-441). -/
def mkArticle (news_id : Option Nat) (rss : String) (n : Noticia)
    (thumbnail_url : Option String) : Article :=
  { news_id := news_id, rss_url := rss, title := n.title, link := n.link,
    thumbnail_url := thumbnail_url, published := n.published }

/-- Thumbnail step, `scraper.py` lines 404-416: only attempted for a truthy
image URL; a `None` result increments the failure counter but the item still
proceeds. Returns the thumbnail and the failure increment. -/
def thumbStep (orc : Oracles) (n : Noticia) : Option String × Nat :=
  match n.image_url with
  | none => (none, 0)
  | some u =>
    if u == "" then (none, 0)
    else
      match orc.thumb u with
      | some t => (some t, 0)
      | none => (none, 1)

/-- One iteration of the insert loop, `scraper.py` lines 399-456: the
`news_id` guard, the thumbnail step, the duplicate-link check for truthy
links (against the live table), then the insert with its two failure modes.
Counter updates are written flattened; this coincides field by field with
the source's sequential updates. -/
def execStep (orc : Oracles) (rss : String) (news_id : Option Nat)
    (st : ExecState) (n : Noticia) : ExecState :=
  if truthyId news_id = false then { st with failures := st.failures + 1 }
  else
    let tres := thumbStep orc n
    if truthyStr n.link && linkExists st.table n.link then
      { st with failures := st.failures + tres.2,
                dup_skipped := st.dup_skipped + 1 }
    else
      let art := mkArticle news_id rss n tres.1
      if orc.insertOk art then
        { st with failures := st.failures + tres.2,
                  inserted := st.inserted + 1,
                  table := st.table ++ [art],
                  insertedArticles := st.insertedArticles ++ [art] }
      else { st with failures := st.failures + tres.2 + 1 }

/-- The whole insert loop over the planned items. -/
def execRun (orc : Oracles) (rss : String) (news_id : Option Nat)
    (st : ExecState) (items : List Noticia) : ExecState :=
  items.foldl (execStep orc rss news_id) st

/-- Fresh executor state over a given `article` table. -/
def initState (table : List Article) : ExecState :=
  { inserted := 0, dup_skipped := 0, failures := 0, table := table,
    insertedArticles := [] }

/-- One whole feed run (`scraper.py` lines 339-464, per feed): plan against
the stored watermark, execute the inserts, then update the watermark.
Returns the persisted watermark and the final executor state. -/
def runFeed (orc : Oracles) (rss : String) (news_id : Option Nat)
    (w : Option Int) (ns : List Noticia) (table : List Article) :
    Option Int × ExecState :=
  let p := plan w ns
  let st := execRun orc rss news_id (initState table) p.2
  (updateLastArticle w p.1, st)

/-! ## Specification-side definitions -/

/-- Maximum of two optional instants (absent = no constraint). -/
def omax : Option Int → Option Int → Option Int
  | none, b => b
  | some a, none => some a
  | some a, some b => some (max a b)

/-- The maximum `publishedAt` across all fetched items (the spec's
`newWatermark` ingredient): over every item carrying an instant, not only
those selected for insertion. -/
def maxPublishedAll (ns : List Noticia) : Option Int :=
  ns.foldr
    (fun n acc =>
      match n.published with
      | none => acc
      | some p => omax (some p) acc)
    none

/-- The planner's selection predicate as the spec words it: strictly newer
than the watermark, everything when the watermark is absent (items without
an instant are never selected). -/
def selPred (w : Option Int) (n : Noticia) : Bool :=
  match n.published, w with
  | none, _ => false
  | some _, none => true
  | some p, some wv => decide (wv < p)

/-- The non-empty links of a list of article rows (the links subject to the
duplicate-check guard in the executor). -/
def truthyLinks (arts : List Article) : List String :=
  arts.filterMap
    (fun a =>
      match a.link with
      | none => none
      | some l => if l = "" then none else some l)

/-! ## Planner lemmas -/

theorem omax_assoc (a b c : Option Int) : omax (omax a b) c = omax a (omax b c) := by
  cases a <;> cases b <;> cases c <;> simp [omax, max_assoc]

theorem planAux_fst (w : Option Int) (ns : List Noticia) :
    ∀ acc, (planAux w acc ns).1 = omax acc (maxPublishedAll ns) := by
  induction ns with
  | nil => intro acc; cases acc <;> simp [planAux, maxPublishedAll, omax]
  | cons n ns ih =>
    intro acc
    simp only [planAux, maxPublishedAll, List.foldr]
    cases hp : n.published with
    | none =>
      simpa [hp, planAux, maxPublishedAll] using ih acc
    | some pub =>
      have hacc : (match acc with
          | none => some pub
          | some m => if m < pub then some pub else some m) = omax acc (some pub) := by
        cases acc with
        | none => simp [omax]
        | some m =>
          by_cases h : m < pub
          · simp [omax, h, max_eq_right (le_of_lt h)]
          · simp [omax, h, max_eq_left (le_of_not_lt h)]
      simp only [hp, hacc]
      rw [ih (omax acc (some pub)), omax_assoc]
      rfl

theorem planAux_snd (w : Option Int) (ns : List Noticia) :
    ∀ acc, (planAux w acc ns).2 = ns.filter (selPred w) := by
  induction ns with
  | nil => intro acc; simp [planAux]
  | cons n ns ih =>
    intro acc
    cases hp : n.published with
    | none => simp [planAux, hp, List.filter, selPred, ih]
    | some pub =>
      cases w with
      | none => simp [planAux, hp, List.filter, selPred, ih]
      | some wv =>
        by_cases h : wv < pub
        · simp [planAux, hp, List.filter, selPred, h, ih]
        · simp [planAux, hp, List.filter, selPred, h, ih]

theorem plan_fst (w : Option Int) (ns : List Noticia) :
    (plan w ns).1 = maxPublishedAll ns := by
  rw [plan, planAux_fst]; cases maxPublishedAll ns <;> simp [omax]

theorem plan_snd (w : Option Int) (ns : List Noticia) :
    (plan w ns).2 = ns.filter (selPred w) :=
  planAux_snd w ns none

theorem updateLastArticle_eq_omax (w maxp : Option Int) :
    updateLastArticle w maxp = omax w maxp := by
  cases maxp with
  | none => cases w <;> simp [updateLastArticle, omax]
  | some m =>
    cases w with
    | none => simp [updateLastArticle, omax]
    | some a =>
      by_cases h : a < m
      · simp [updateLastArticle, omax, h, max_eq_right (le_of_lt h)]
      · simp [updateLastArticle, omax, h, max_eq_left (le_of_not_lt h)]

theorem maxPublishedAll_cons (a : Noticia) (ns : List Noticia) :
    maxPublishedAll (a :: ns) =
      match a.published with
      | none => maxPublishedAll ns
      | some p => omax (some p) (maxPublishedAll ns) := rfl

theorem maxPublishedAll_le (ns : List Noticia) (n : Noticia) (p : Int)
    (hmem : n ∈ ns) (hp : n.published = some p) :
    ∃ m, maxPublishedAll ns = some m ∧ p ≤ m := by
  induction ns with
  | nil => cases hmem
  | cons a ns ih =>
    rcases List.mem_cons.mp hmem with h | h
    · subst h
      rw [maxPublishedAll_cons, hp]
      cases hrest : maxPublishedAll ns with
      | none => exact ⟨p, by simp [omax], le_refl p⟩
      | some m => exact ⟨max p m, by simp [omax], le_max_left p m⟩
    · rcases ih h with ⟨m, hm, hpm⟩
      rw [maxPublishedAll_cons]
      cases ha : a.published with
      | none => exact ⟨m, hm, hpm⟩
      | some q =>
        exact ⟨max q m, by simp [hm, omax], le_trans hpm (le_max_right q m)⟩

/-! ## Executor lemmas -/

theorem truthyLinks_append (a b : List Article) :
    truthyLinks (a ++ b) = truthyLinks a ++ truthyLinks b := by
  simp [truthyLinks, List.filterMap_append]

theorem linkExists_append (t1 t2 : List Article) (l : Option String) :
    linkExists (t1 ++ t2) l = (linkExists t1 l || linkExists t2 l) := by
  simp [linkExists, List.any_append]

theorem truthyLinks_single (a : Article) :
    truthyLinks [a] =
      match a.link with
      | none => []
      | some l => if l = "" then [] else [l] := by
  cases h : a.link with
  | none => simp [truthyLinks, h]
  | some l => by_cases hl : l = "" <;> simp [truthyLinks, h, hl]

/-- Invariant maintained by the insert loop: the non-empty links inserted so
far (together with those of earlier runs, `prev`) are pairwise distinct and
all present in the `article` table. -/
def linksOk (prev : List String) (st : ExecState) : Prop :=
  (prev ++ truthyLinks st.insertedArticles).Nodup ∧
  ∀ l ∈ prev ++ truthyLinks st.insertedArticles, linkExists st.table (some l) = true

theorem eq_true_of_not_eq_false {b : Bool} (h : ¬ b = false) : b = true := by
  cases b
  · exact absurd rfl h
  · rfl

theorem eq_false_of_not_eq_true {b : Bool} (h : ¬ b = true) : b = false := by
  cases b
  · rfl
  · exact absurd rfl h

/-- The executor step when the feed row id is falsy (`scraper.py` line 400):
counted as a failure, nothing else happens. -/
theorem execStep_eq_noid (orc : Oracles) (rss : String) (nid : Option Nat)
    (st : ExecState) (n : Noticia) (hid : truthyId nid = false) :
    execStep orc rss nid st n = { st with failures := st.failures + 1 } := by
  simp [execStep, hid]

/-- The executor step when the item's truthy link is already in the table:
counted as a duplicate and skipped (any thumbnail failure was already
counted first). -/
theorem execStep_eq_dup (orc : Oracles) (rss : String) (nid : Option Nat)
    (st : ExecState) (n : Noticia) (hid : truthyId nid = true)
    (hdup : (truthyStr n.link && linkExists st.table n.link) = true) :
    execStep orc rss nid st n =
      { st with failures := st.failures + (thumbStep orc n).2,
                dup_skipped := st.dup_skipped + 1 } := by
  simp [execStep, hid, hdup]

/-- The executor step on a successful insert. -/
theorem execStep_eq_ins (orc : Oracles) (rss : String) (nid : Option Nat)
    (st : ExecState) (n : Noticia) (hid : truthyId nid = true)
    (hdup : (truthyStr n.link && linkExists st.table n.link) = false)
    (hok : orc.insertOk (mkArticle nid rss n (thumbStep orc n).1) = true) :
    execStep orc rss nid st n =
      { st with failures := st.failures + (thumbStep orc n).2,
                inserted := st.inserted + 1,
                table := st.table ++ [mkArticle nid rss n (thumbStep orc n).1],
                insertedArticles :=
                  st.insertedArticles ++ [mkArticle nid rss n (thumbStep orc n).1] } := by
  simp [execStep, hid, hdup, hok]

/-- The executor step on a failed insert. -/
theorem execStep_eq_insfail (orc : Oracles) (rss : String) (nid : Option Nat)
    (st : ExecState) (n : Noticia) (hid : truthyId nid = true)
    (hdup : (truthyStr n.link && linkExists st.table n.link) = false)
    (hok : orc.insertOk (mkArticle nid rss n (thumbStep orc n).1) = false) :
    execStep orc rss nid st n =
      { st with failures := st.failures + (thumbStep orc n).2 + 1 } := by
  simp [execStep, hid, hdup, hok]

theorem execStep_linksOk (orc : Oracles) (rss : String) (nid : Option Nat)
    (st : ExecState) (n : Noticia) (prev : List String) (h : linksOk prev st) :
    linksOk prev (execStep orc rss nid st n) := by
  rcases h with ⟨hnodup, hmem⟩
  by_cases hid : truthyId nid = false
  · rw [execStep_eq_noid orc rss nid st n hid]
    exact ⟨hnodup, hmem⟩
  · have hid2 := eq_true_of_not_eq_false hid
    by_cases hdup : (truthyStr n.link && linkExists st.table n.link) = true
    · rw [execStep_eq_dup orc rss nid st n hid2 hdup]
      exact ⟨hnodup, hmem⟩
    · have hdup2 := eq_false_of_not_eq_true hdup
      by_cases hok : orc.insertOk (mkArticle nid rss n (thumbStep orc n).1) = true
      · rw [execStep_eq_ins orc rss nid st n hid2 hdup2 hok]
        have hartlink : (mkArticle nid rss n (thumbStep orc n).1).link = n.link := rfl
        constructor
        · show (prev ++ truthyLinks (st.insertedArticles ++ _)).Nodup
          rw [truthyLinks_append, ← List.append_assoc, truthyLinks_single, hartlink]
          cases hl : n.link with
          | none => simpa using hnodup
          | some l =>
            by_cases hle : l = ""
            · simpa [hle] using hnodup
            · have htr : truthyStr n.link = true := by simp [truthyStr, hl, hle]
              have hnotin : linkExists st.table n.link = false := by
                cases hex : linkExists st.table n.link with
                | false => rfl
                | true => rw [htr, hex] at hdup2; exact absurd hdup2 (by simp)
              have hfresh : l ∉ prev ++ truthyLinks st.insertedArticles := by
                intro hc
                have := hmem l hc
                rw [hl] at hnotin
                rw [hnotin] at this
                exact Bool.false_ne_true this
              simp only [hle, if_false]
              refine List.Nodup.append hnodup (List.nodup_singleton l) ?_
              intro x hx hy
              rw [List.mem_singleton] at hy
              subst hy
              exact hfresh hx
        · show ∀ l ∈ prev ++ truthyLinks (st.insertedArticles ++ _),
            linkExists (st.table ++ _) (some l) = true
          intro l hl
          rw [truthyLinks_append, ← List.append_assoc, truthyLinks_single, hartlink] at hl
          rw [linkExists_append]
          cases hlk : n.link with
          | none =>
            rw [hlk] at hl
            rw [hmem l (by simpa using hl)]
            rfl
          | some x =>
            rw [hlk] at hl
            by_cases hx : x = ""
            · rw [hmem l (by simpa [hx] using hl)]
              rfl
            · simp only [hx, if_false] at hl
              rcases List.mem_append.mp hl with hold | hnew
              · rw [hmem l hold]; rfl
              · rw [List.mem_singleton] at hnew
                subst hnew
                have : linkExists [mkArticle nid rss n (thumbStep orc n).1] (some l) = true := by
                  simp [linkExists, hartlink, hlk]
                rw [this, Bool.or_true]
      · have hok2 := eq_false_of_not_eq_true hok
        rw [execStep_eq_insfail orc rss nid st n hid2 hdup2 hok2]
        exact ⟨hnodup, hmem⟩

theorem execRun_linksOk (orc : Oracles) (rss : String) (nid : Option Nat)
    (items : List Noticia) :
    ∀ (st : ExecState) (prev : List String), linksOk prev st →
      linksOk prev (execRun orc rss nid st items) := by
  induction items with
  | nil => intro st prev h; simpa [execRun] using h
  | cons n items ih =>
    intro st prev h
    have : execRun orc rss nid st (n :: items)
        = execRun orc rss nid (execStep orc rss nid st n) items := rfl
    rw [this]
    exact ih _ prev (execStep_linksOk orc rss nid st n prev h)

/-! ## Claims -/

/-- C1. For every feed run, the persisted watermark equals the maximum of
the previously stored watermark and the maximum `publishedAt` over all
fetched items (over all of them, not only the selected ones); it never
decreases, and it advances to that maximum whenever the maximum strictly
exceeds every stored value — for any oracle behaviour, hence even when
individual inserts fail. -/
theorem watermark_persist_c1 (orc : Oracles) (rss : String) (nid : Option Nat)
    (w : Option Int) (ns : List Noticia) (t0 : List Article) :
    (runFeed orc rss nid w ns t0).1 = omax w (maxPublishedAll ns)
    ∧ (∀ a b : Int, w = some a → (runFeed orc rss nid w ns t0).1 = some b → a ≤ b)
    ∧ (∀ m : Int, maxPublishedAll ns = some m → (∀ a : Int, w = some a → a < m) →
        (runFeed orc rss nid w ns t0).1 = some m) := by
  have h1 : (runFeed orc rss nid w ns t0).1 = omax w (maxPublishedAll ns) := by
    show updateLastArticle w (plan w ns).1 = _
    rw [updateLastArticle_eq_omax, plan_fst]
  refine ⟨h1, ?_, ?_⟩
  · intro a b ha hb
    rw [h1, ha] at hb
    cases hm : maxPublishedAll ns with
    | none => rw [hm] at hb; simp [omax] at hb; omega
    | some m =>
      rw [hm] at hb; simp [omax] at hb
      rw [← hb]; exact le_max_left a m
  · intro m hm hlt
    rw [h1, hm]
    cases w with
    | none => rfl
    | some a =>
      have := hlt a rfl
      simp [omax, max_eq_right (le_of_lt this)]

/-- Witness for C1 at a concrete run: stored watermark 3, items published at
5 and 4, failing insert oracle; the persisted watermark is 5. -/
theorem watermark_persist_c1_witness :
    (runFeed ⟨fun _ => none, fun _ => false⟩ "r" (some 1) (some 3)
      [⟨none, some "a", some 5, none⟩, ⟨none, some "b", some 4, none⟩] []).1 = some 5 :=
  (watermark_persist_c1 ⟨fun _ => none, fun _ => false⟩ "r" (some 1) (some 3)
      [⟨none, some "a", some 5, none⟩, ⟨none, some "b", some 4, none⟩] []).2.2
    5 rfl (by intro a ha; cases ha; decide)

/-- C2. The planner selects exactly the items strictly newer than the stored
watermark (equal instants excluded); with an absent watermark every fetched
item (all carry an instant) is selected and the computed new watermark is
the maximum published instant. -/
theorem plan_select_c2 (ns : List Noticia) :
    (∀ w : Int, (plan (some w) ns).2 = ns.filter (selPred (some w)))
    ∧ ((∀ n ∈ ns, n.published.isSome = true) →
        (plan none ns).2 = ns ∧ (plan none ns).1 = maxPublishedAll ns) := by
  refine ⟨fun w => plan_snd (some w) ns, fun h => ⟨?_, plan_fst none ns⟩⟩
  rw [plan_snd]
  apply List.filter_eq_self.mpr
  intro n hn
  have := h n hn
  cases hp : n.published with
  | none => rw [hp] at this; simp at this
  | some p => simp [selPred, hp]

/-- Witness for C2: with no watermark, the single item (published at 3) is
selected and the new watermark is 3. -/
theorem plan_select_c2_witness :
    (plan none [(⟨none, none, some 3, none⟩ : Noticia)]).2
        = [(⟨none, none, some 3, none⟩ : Noticia)]
    ∧ (plan none [(⟨none, none, some 3, none⟩ : Noticia)]).1
        = maxPublishedAll [(⟨none, none, some 3, none⟩ : Noticia)] :=
  (plan_select_c2 [(⟨none, none, some 3, none⟩ : Noticia)]).2 (by decide)

/-- C3. Planning is idempotent: re-planning the same item set against the
watermark persisted by a first run selects nothing (every instant is at most
the persisted watermark and the filter is strict). -/
theorem plan_idempotent_c3 (w : Option Int) (ns : List Noticia) :
    (plan (updateLastArticle w (plan w ns).1) ns).2 = [] := by
  rw [plan_snd]
  rw [List.filter_eq_nil_iff]
  intro n hn
  cases hp : n.published with
  | none => simp [selPred, hp]
  | some p =>
    rcases maxPublishedAll_le ns n p hn hp with ⟨m, hm, hpm⟩
    rw [updateLastArticle_eq_omax, plan_fst, hm]
    cases w with
    | none => simp [selPred, hp, omax]; omega
    | some a =>
      simp [selPred, hp, omax]
      intro _
      exact hpm

/-- C4 counterexample. The claim quantifies over items with a *non-null*
link, but the executor guards the duplicate check with Python truthiness
(`if link_val:`), so an item whose link is the non-null empty string is
never checked against the store and is inserted again by a second run over
the same item set: the link `""` is inserted twice and no duplicate is
counted. -/
theorem duplicate_link_c4_counterexample :
    ((execRun ⟨fun _ => none, fun _ => true⟩ "r" (some 1)
          (initState []) [⟨none, some "", some 1, none⟩]).insertedArticles
        ++ (execRun ⟨fun _ => none, fun _ => true⟩ "r" (some 1)
          (initState (execRun ⟨fun _ => none, fun _ => true⟩ "r" (some 1)
            (initState []) [⟨none, some "", some 1, none⟩]).table)
          [⟨none, some "", some 1, none⟩]).insertedArticles).filterMap
        (fun a => a.link) = ["", ""]
    ∧ (execRun ⟨fun _ => none, fun _ => true⟩ "r" (some 1)
          (initState (execRun ⟨fun _ => none, fun _ => true⟩ "r" (some 1)
            (initState []) [⟨none, some "", some 1, none⟩]).table)
          [⟨none, some "", some 1, none⟩]).dup_skipped = 0 :=
  ⟨rfl, rfl⟩

/-- C4 (amended). For every item with a truthy (non-null, non-empty) link,
the executor first checks the store and, on a hit, counts a duplicate and
skips the item without inserting; consequently across two sequential
executor runs over the same item set (the second seeing the first's
table) no truthy link is ever inserted twice. -/
theorem dup_guard_at_most_once_c4 :
    (∀ (orc : Oracles) (rss : String) (nid : Option Nat) (st : ExecState) (n : Noticia),
        truthyId nid = true → truthyStr n.link = true →
        linkExists st.table n.link = true →
        execStep orc rss nid st n =
          { st with failures := st.failures + (thumbStep orc n).2,
                    dup_skipped := st.dup_skipped + 1 })
    ∧ (∀ (orc1 orc2 : Oracles) (rss1 rss2 : String) (nid1 nid2 : Option Nat)
          (items : List Noticia) (t0 : List Article),
        (truthyLinks (execRun orc1 rss1 nid1 (initState t0) items).insertedArticles ++
          truthyLinks (execRun orc2 rss2 nid2
            (initState (execRun orc1 rss1 nid1 (initState t0) items).table)
            items).insertedArticles).Nodup) := by
  constructor
  · intro orc rss nid st n hid htr hex
    exact execStep_eq_dup orc rss nid st n hid (by rw [htr, hex]; rfl)
  · intro orc1 orc2 rss1 rss2 nid1 nid2 items t0
    have h0 : linksOk [] (initState t0) := by
      constructor
      · simp [truthyLinks, initState]
      · intro l hl
        simp [truthyLinks, initState] at hl
    have h1 := execRun_linksOk orc1 rss1 nid1 items (initState t0) [] h0
    rcases h1 with ⟨hn1, hm1⟩
    rw [List.nil_append] at hn1
    have h2 : linksOk
        (truthyLinks (execRun orc1 rss1 nid1 (initState t0) items).insertedArticles)
        (initState (execRun orc1 rss1 nid1 (initState t0) items).table) := by
      constructor
      · simpa [initState, truthyLinks] using hn1
      · intro l hl
        have hl2 : l ∈ truthyLinks
            (execRun orc1 rss1 nid1 (initState t0) items).insertedArticles := by
          simpa [initState, truthyLinks] using hl
        have := hm1 l (by rw [List.nil_append]; exact hl2)
        simpa [initState] using this
    exact (execRun_linksOk orc2 rss2 nid2 items _ _ h2).1

/-- Witness for the per-item duplicate guard of C4: a truthy link already in
the table is counted as a duplicate. -/
theorem dup_guard_c4_witness :
    (execStep ⟨fun _ => none, fun _ => true⟩ "r" (some 1)
      (initState [⟨some 1, "r", none, some "L", none, some 1⟩])
      ⟨none, some "L", some 2, none⟩).dup_skipped = 1 := by
  rw [dup_guard_at_most_once_c4.1 ⟨fun _ => none, fun _ => true⟩ "r" (some 1)
    (initState [⟨some 1, "r", none, some "L", none, some 1⟩])
    ⟨none, some "L", some 2, none⟩ (by decide) (by decide) (by decide)]
  rfl

/-- C5. A planned item whose image URL is truthy but whose thumbnail
derivation fails behaves exactly like the same item without an image after
one extra counted failure: the failure never blocks the insert, and when
the insert goes through, the stored record carries a null thumbnail. -/
theorem thumb_fail_insert_c5 (orc : Oracles) (rss : String) (nid : Option Nat)
    (st : ExecState) (n : Noticia) (u : String)
    (hnid : truthyId nid = true) (himg : n.image_url = some u)
    (hu : ¬ u = "") (ht : orc.thumb u = none) :
    execStep orc rss nid st n
      = execStep orc rss nid { st with failures := st.failures + 1 }
          { n with image_url := none }
    ∧ ((truthyStr n.link && linkExists st.table n.link) = false →
        orc.insertOk (mkArticle nid rss n none) = true →
        execStep orc rss nid st n
          = { st with failures := st.failures + 1,
                      inserted := st.inserted + 1,
                      table := st.table ++ [mkArticle nid rss n none],
                      insertedArticles := st.insertedArticles ++ [mkArticle nid rss n none] }) := by
  have hth : thumbStep orc n = (none, 1) := by
    simp [thumbStep, himg, hu, ht]
  have hth2 : thumbStep orc { n with image_url := none } = (none, 0) := by
    simp [thumbStep]
  constructor
  · simp [execStep, hnid, hth, hth2, mkArticle]
  · intro hdup hok
    have hok2 : orc.insertOk (mkArticle nid rss n (thumbStep orc n).1) = true := by
      rw [hth]; exact hok
    rw [execStep_eq_ins orc rss nid st n hnid hdup hok2, hth]

/-- Witness for C5: thumbnail fails, yet the article is inserted with a null
thumbnail; the failure and insert counters both move. -/
theorem thumb_fail_insert_c5_witness :
    execStep ⟨fun _ => none, fun _ => true⟩ "r" (some 1) (initState [])
        ⟨none, some "L", some 1, some "img"⟩
      = { (initState []) with
          failures := 1,
          inserted := 1,
          table := [mkArticle (some 1) "r" ⟨none, some "L", some 1, some "img"⟩ none],
          insertedArticles := [mkArticle (some 1) "r" ⟨none, some "L", some 1, some "img"⟩ none] } :=
  (thumb_fail_insert_c5 ⟨fun _ => none, fun _ => true⟩ "r" (some 1) (initState [])
      ⟨none, some "L", some 1, some "img"⟩ "img" (by decide) rfl (by decide) rfl).2
    (by decide) rfl

/-- C6 counterexample. An item whose link is null (news_id present) is NOT
counted as a failure and its insertion IS attempted: the guard at
`scraper.py` line 400 is on the feed row id `news_id`, not on the item's
link, and a null link merely skips the duplicate check. -/
theorem null_link_c6_counterexample :
    (execRun ⟨fun _ => none, fun _ => true⟩ "r" (some 1) (initState [])
        [⟨some "t", none, some 1, none⟩]).failures = 0
    ∧ (execRun ⟨fun _ => none, fun _ => true⟩ "r" (some 1) (initState [])
        [⟨some "t", none, some 1, none⟩]).inserted = 1
    ∧ (execRun ⟨fun _ => none, fun _ => true⟩ "r" (some 1) (initState [])
        [⟨some "t", none, some 1, none⟩]).insertedArticles
      = [⟨some 1, "r", some "t", none, none, some 1⟩] :=
  ⟨rfl, rfl, rfl⟩

/-- C6 (amended). A planned item is counted as a failure with no insertion
attempt exactly when the feed row id (`news_id`) is falsy; an item with a
null link (and, here, no image) skips the duplicate check and its insertion
is attempted with a null link. -/
theorem news_id_guard_c6_amended (orc : Oracles) (rss : String) (nid : Option Nat)
    (st : ExecState) (n : Noticia) :
    (truthyId nid = false →
        execStep orc rss nid st n = { st with failures := st.failures + 1 })
    ∧ (truthyId nid = true → n.link = none → n.image_url = none →
        execStep orc rss nid st n =
          if orc.insertOk (mkArticle nid rss n none) then
            { st with inserted := st.inserted + 1,
                      table := st.table ++ [mkArticle nid rss n none],
                      insertedArticles := st.insertedArticles ++ [mkArticle nid rss n none] }
          else { st with failures := st.failures + 1 }) := by
  constructor
  · exact fun h => execStep_eq_noid orc rss nid st n h
  · intro hid hl himg
    have hth : thumbStep orc n = (none, 0) := by simp [thumbStep, himg]
    have hdup : (truthyStr n.link && linkExists st.table n.link) = false := by
      simp [truthyStr, hl]
    by_cases hok : orc.insertOk (mkArticle nid rss n none) = true
    · rw [if_pos hok]
      have hok2 : orc.insertOk (mkArticle nid rss n (thumbStep orc n).1) = true := by
        rw [hth]; exact hok
      rw [execStep_eq_ins orc rss nid st n hid hdup hok2, hth]
      rfl
    · rw [if_neg hok]
      have hok2 : orc.insertOk (mkArticle nid rss n (thumbStep orc n).1) = false := by
        rw [hth]; exact eq_false_of_not_eq_true hok
      rw [execStep_eq_insfail orc rss nid st n hid hdup hok2, hth]
      rfl

/-- Witness for C6 (amended): with a missing news row id the item is counted
as a failure and nothing is inserted. -/
theorem news_id_guard_c6_witness :
    execStep ⟨fun _ => none, fun _ => true⟩ "r" none (initState [])
        ⟨none, none, some 1, none⟩
      = { (initState []) with failures := 1 } :=
  (news_id_guard_c6_amended ⟨fun _ => none, fun _ => true⟩ "r" none (initState [])
      ⟨none, none, some 1, none⟩).1 rfl

/-- C10. When the thumbnail fails but the insert succeeds, the executor
increments both the failure and the inserted counter for that single item,
so inserted + duplicatesSkipped + failures grows by 2 for one processed
item (the counters do not partition the items). -/
theorem counters_overlap_c10 (orc : Oracles) (rss : String) (nid : Option Nat)
    (st : ExecState) (n : Noticia) (u : String)
    (hnid : truthyId nid = true) (himg : n.image_url = some u) (hu : ¬ u = "")
    (ht : orc.thumb u = none)
    (hdup : (truthyStr n.link && linkExists st.table n.link) = false)
    (hok : orc.insertOk (mkArticle nid rss n none) = true) :
    (execStep orc rss nid st n).failures = st.failures + 1
    ∧ (execStep orc rss nid st n).inserted = st.inserted + 1
    ∧ (execStep orc rss nid st n).dup_skipped = st.dup_skipped
    ∧ (execStep orc rss nid st n).inserted + (execStep orc rss nid st n).dup_skipped
        + (execStep orc rss nid st n).failures
      = st.inserted + st.dup_skipped + st.failures + 2 := by
  have hth : thumbStep orc n = (none, 1) := by
    simp [thumbStep, himg, hu, ht]
  have hok2 : orc.insertOk (mkArticle nid rss n (thumbStep orc n).1) = true := by
    rw [hth]; exact hok
  rw [execStep_eq_ins orc rss nid st n hnid hdup hok2, hth]
  refine ⟨rfl, rfl, rfl, ?_⟩
  show st.inserted + 1 + st.dup_skipped + (st.failures + 1)
      = st.inserted + st.dup_skipped + st.failures + 2
  omega

/-- Witness for C10: one item, thumbnail failure plus successful insert —
the counters sum to 2. -/
theorem counters_overlap_c10_witness :
    (execStep ⟨fun _ => none, fun _ => true⟩ "r" (some 1) (initState [])
        ⟨none, some "L", some 1, some "img"⟩).inserted
      + (execStep ⟨fun _ => none, fun _ => true⟩ "r" (some 1) (initState [])
        ⟨none, some "L", some 1, some "img"⟩).dup_skipped
      + (execStep ⟨fun _ => none, fun _ => true⟩ "r" (some 1) (initState [])
        ⟨none, some "L", some 1, some "img"⟩).failures = 2 :=
  (counters_overlap_c10 ⟨fun _ => none, fun _ => true⟩ "r" (some 1) (initState [])
      ⟨none, some "L", some 1, some "img"⟩ "img" (by decide) rfl (by decide) rfl
      (by decide) rfl).2.2.2

/-! ## ImageResolver: scraper.py lines 128-205

    A feed entry as far as `extract_image` inspects it: the three media
    lists hold, per element, the value of the attribute the code reads
    (`url` / `href` / `url`), `none` when that attribute is missing; the
    outer `Option` is key presence. -/

structure Entry where
  media_content : Option (List (Option String))
  enclosures : Option (List (Option String))
  media_thumbnail : Option (List (Option String))
  summary : Option String
  description : Option String
  link : Option String
  deriving Repr, DecidableEq

/-- A fetched-and-parsed page as far as `extract_image_from_page` inspects
it: for each probed tag, `some c` means the tag was found and its attribute
has value `c` (possibly empty — a found tag without the attribute behaves
identically to an empty one under the code's truthiness tests). -/
structure Page where
  og_image : Option String
  twitter_image : Option String
  image_src_href : Option String
  first_img_src : Option String
  deriving Repr, DecidableEq

/-- Python `if x:` filtering on an optional string: keeps only a non-empty
value. Models every `if url: return url` fall-through in the strategy
chain. -/
def pytruthy : Option String → Option String
  | none => none
  | some s => if s == "" then none else some s

/-- `extract_image_from_page` (`scraper.py` lines 143-176): everything is
inside `try/except Exception: return None`, so a failing fetch or parse
(the `fetch` collaborator returning an error) yields `none`; otherwise the
og:image, twitter:image, image_src and first-img probes run in order, the
last one resolving a truthy `src` against the page URL (`urljoin`, the
`joinUrl` collaborator). -/
def extract_image_from_page (fetch : Option String → Except String Page)
    (joinUrl : Option String → String → String) (url : Option String) : Option String :=
  match fetch url with
  | Except.error _ => none
  | Except.ok p =>
    match pytruthy p.og_image with
    | some c => some c
    | none =>
      match pytruthy p.twitter_image with
      | some c => some c
      | none =>
        match pytruthy p.image_src_href with
        | some c => some c
        | none =>
          match pytruthy p.first_img_src with
          | some src => some (joinUrl url src)
          | none => none

/-- Strategy 1 raw value (`scraper.py` lines 182-184): guarded by key
presence AND list non-emptiness (`if "media_content" in entry and
entry.media_content:`), then `[0].get("url")`. -/
def strat1 (e : Entry) : Option String :=
  match e.media_content with
  | some (u :: _) => u
  | _ => none

/-- Strategy 2 raw value (`scraper.py` lines 187-189): same double guard on
`enclosures`, then `[0].get("href")`. -/
def strat2 (e : Entry) : Option String :=
  match e.enclosures with
  | some (u :: _) => u
  | _ => none

/-- Strategy 3 (`scraper.py` lines 192-194): guarded ONLY by key presence
(`if "media_thumbnail" in entry:`), then `entry.media_thumbnail[0]` — on a
present-but-empty list this indexing raises IndexError. -/
def strat3 (e : Entry) : Except String (Option String) :=
  match e.media_thumbnail with
  | some [] => Except.error "IndexError"
  | some (u :: _) => Except.ok u
  | none => Except.ok none

/-- `desc = entry.get("summary") or entry.get("description")` — Python
`or`: the summary when truthy, else the description. -/
def descOf (e : Entry) : Option String :=
  match e.summary with
  | some s => if s == "" then e.description else some s
  | none => e.description

/-- `extract_image` (`scraper.py` lines 179-205): the five-strategy chain,
first truthy result wins. `byExt` is the (total, regex-search based)
`extract_image_by_extension`; `pageScrape` is the page-scrape fallback
(instantiated with `extract_image_from_page`). -/
def extract_image (byExt pageScrape : Option String → Option String)
    (e : Entry) : Except String (Option String) :=
  match pytruthy (strat1 e) with
  | some v => Except.ok (some v)
  | none =>
    match pytruthy (strat2 e) with
    | some v => Except.ok (some v)
    | none =>
      match strat3 e with
      | Except.error err => Except.error err
      | Except.ok r3 =>
        match pytruthy r3 with
        | some v => Except.ok (some v)
        | none =>
          match pytruthy (byExt (descOf e)) with
          | some v => Except.ok (some v)
          | none =>
            match pytruthy (pageScrape e.link) with
            | some v => Except.ok (some v)
            | none => Except.ok none

/-- C9 (the claim is right, the code has a slip). An entry whose
`media_thumbnail` key is present with an empty list makes `extract_image`
raise IndexError — strategy 3 lacks the non-emptiness guard that strategies
1 and 2 both have. On every other entry the resolver is total, and a fetch
failure in the page-scrape fallback yields null, not an exception. -/
theorem extract_image_total_c9 :
    extract_image (fun _ => none) (fun _ => none)
        ⟨none, none, some [], none, none, none⟩ = Except.error "IndexError"
    ∧ (∀ (byExt pageScrape : Option String → Option String) (e : Entry),
        e.media_thumbnail ≠ some [] →
        ∃ r : Option String, extract_image byExt pageScrape e = Except.ok r)
    ∧ (∀ (fetch : Option String → Except String Page)
          (joinUrl : Option String → String → String)
          (url : Option String) (s : String),
        fetch url = Except.error s →
        extract_image_from_page fetch joinUrl url = none) := by
  refine ⟨rfl, ?_, ?_⟩
  · intro byExt pageScrape e hmt
    have h3 : ∃ r, strat3 e = Except.ok r := by
      cases hmt2 : e.media_thumbnail with
      | none => exact ⟨none, by simp [strat3, hmt2]⟩
      | some l =>
        cases l with
        | nil => exact absurd hmt2 hmt
        | cons u t => exact ⟨u, by simp [strat3, hmt2]⟩
    rcases h3 with ⟨r3, h3⟩
    simp only [extract_image, h3]
    split
    · exact ⟨_, rfl⟩
    · split
      · exact ⟨_, rfl⟩
      · split
        · exact ⟨_, rfl⟩
        · split
          · exact ⟨_, rfl⟩
          · split
            · exact ⟨_, rfl⟩
            · exact ⟨_, rfl⟩
  · intro fetch joinUrl url s h
    simp [extract_image_from_page, h]

/-- Witness for C9's totality part at a concrete entry. -/
theorem extract_image_total_c9_witness :
    ∃ r : Option String, extract_image (fun _ => none) (fun _ => none)
      ⟨none, none, none, none, none, none⟩ = Except.ok r :=
  extract_image_total_c9.2.1 (fun _ => none) (fun _ => none)
    ⟨none, none, none, none, none, none⟩ (by decide)

/-! ## DateNormalizer: src/date_utils.py and its stdlib collaborator

    Strings are modelled as `List Char`. `email.utils.parsedate_to_datetime`
    (via `email._parseaddr._parsedate_tz`, CPython 3.11) is embedded in
    full; places where the Python would raise (IndexError on an empty
    token, ValueError from `datetime`) are modelled as `none`, which is
    observationally identical for `parse_rss_date_to_dt`, whose every call
    sits in a `try/except`. -/

/-- Python `str.split()` / `str.strip()` whitespace (ASCII repertoire, which
also covers the regex class `\s` on the inputs in scope). -/
def pyIsSpace (c : Char) : Bool :=
  c == ' ' || c == '\t' || c == '\n' || c == '\r' || c == '\x0b' || c == '\x0c'

def isDigitCh (c : Char) : Bool := '0' ≤ c && c ≤ '9'

def isLowerAlpha (c : Char) : Bool := 'a' ≤ c && c ≤ 'z'

/-- ASCII `str.lower()`; accented uppercase never reaches a `lower()` call
in the modelled pipeline because diacritics are stripped first. -/
def toLowerPy (c : Char) : Char :=
  if 'A' ≤ c && c ≤ 'Z' then Char.ofNat (c.toNat + 32) else c

/-- ASCII `str.upper()` (only applied to timezone tokens). -/
def toUpperPy (c : Char) : Char :=
  if 'a' ≤ c && c ≤ 'z' then Char.ofNat (c.toNat - 32) else c

/-- `_strip_accents` (`date_utils.py` lines 50-55): NFKD normalization
followed by dropping combining marks, restricted to the Latin-1 repertoire
occurring in Portuguese date strings; identity on everything else. -/
def stripAccentChar (c : Char) : Char :=
  if c == 'á' || c == 'à' || c == 'â' || c == 'ã' || c == 'ä' then 'a'
  else if c == 'é' || c == 'è' || c == 'ê' || c == 'ë' then 'e'
  else if c == 'í' || c == 'ì' || c == 'î' || c == 'ï' then 'i'
  else if c == 'ó' || c == 'ò' || c == 'ô' || c == 'õ' || c == 'ö' then 'o'
  else if c == 'ú' || c == 'ù' || c == 'û' || c == 'ü' then 'u'
  else if c == 'ç' then 'c'
  else if c == 'Á' || c == 'À' || c == 'Â' || c == 'Ã' || c == 'Ä' then 'A'
  else if c == 'É' || c == 'È' || c == 'Ê' || c == 'Ë' then 'E'
  else if c == 'Í' || c == 'Ì' || c == 'Î' || c == 'Ï' then 'I'
  else if c == 'Ó' || c == 'Ò' || c == 'Ô' || c == 'Õ' || c == 'Ö' then 'O'
  else if c == 'Ú' || c == 'Ù' || c == 'Û' || c == 'Ü' then 'U'
  else if c == 'Ç' then 'C'
  else c

def stripAccents (s : List Char) : List Char := s.map stripAccentChar

/-- Python `str.strip()`. -/
def stripWs (s : List Char) : List Char :=
  ((s.dropWhile pyIsSpace).reverse.dropWhile pyIsSpace).reverse

/-- Python `str.split()`: split on whitespace runs, dropping empties. -/
def splitWsAux : List Char → List Char → List (List Char)
  | [], acc => if acc.isEmpty then [] else [acc.reverse]
  | c :: cs, acc =>
    if pyIsSpace c then
      if acc.isEmpty then splitWsAux cs []
      else acc.reverse :: splitWsAux cs []
    else splitWsAux cs (c :: acc)

def splitWs (s : List Char) : List (List Char) := splitWsAux s []

/-- Python `str.split(sep)` for a one-character separator: keeps empty
pieces. -/
def splitOnChar (c : Char) : List Char → List (List Char)
  | [] => [[]]
  | x :: xs =>
    let r := splitOnChar c xs
    if x == c then [] :: r
    else
      match r with
      | [] => [[x]]
      | h :: t => (x :: h) :: t

def digitsVal (ds : List Char) : Nat :=
  ds.foldl (fun a c => a * 10 + (c.toNat - ('0').toNat)) 0

/-- Python `int(str)`: optional surrounding whitespace, optional sign, at
least one digit (digit-group underscores are not used by these inputs). -/
def parseIntPy (s : List Char) : Option Int :=
  let t := ((s.dropWhile pyIsSpace).reverse.dropWhile pyIsSpace).reverse
  match t with
  | '+' :: ds =>
    if ds ≠ [] ∧ ds.all isDigitCh then some (Int.ofNat (digitsVal ds)) else none
  | '-' :: ds =>
    if ds ≠ [] ∧ ds.all isDigitCh then some (-(Int.ofNat (digitsVal ds))) else none
  | ds =>
    if ds ≠ [] ∧ ds.all isDigitCh then some (Int.ofNat (digitsVal ds)) else none

/-- Last index of a character (Python `str.rfind`), if present. -/
def rfindChar (c : Char) (l : List Char) : Option Nat :=
  match l.reverse.findIdx? (fun x => x == c) with
  | some j => some (l.length - 1 - j)
  | none => none

/-- Word characters for the regex `\b` boundary (`\w` with the Unicode
letters that can appear in the accent-stripped repertoire plus the `ç` of
the `março` pattern key). -/
def isWordChar (c : Char) : Bool :=
  ('a' ≤ c && c ≤ 'z') || ('A' ≤ c && c ≤ 'Z') || ('0' ≤ c && c ≤ '9') || c == '_'
  || c == 'ç' || c == 'Ç' || c == 'á' || c == 'â' || c == 'ã' || c == 'é'
  || c == 'ê' || c == 'í' || c == 'ó' || c == 'ô' || c == 'õ' || c == 'ú'

/-- The PT→EN month dictionary of `date_utils.py` lines 34-47, as the regex
alternation actually tries it: keys sorted by length, longest first, the
Python stable sort preserving dictionary insertion order among equal
lengths; each key paired with its replacement. -/
def monthTable : List (List Char × List Char) :=
  [("fevereiro".data, "Feb".data),
   ("setembro".data, "Sep".data),
   ("novembro".data, "Nov".data),
   ("dezembro".data, "Dec".data),
   ("janeiro".data, "Jan".data),
   ("outubro".data, "Oct".data),
   ("agosto".data, "Aug".data),
   ("marco".data, "Mar".data),
   ("março".data, "Mar".data),
   ("abril".data, "Apr".data),
   ("junho".data, "Jun".data),
   ("julho".data, "Jul".data),
   ("maio".data, "May".data),
   ("jan".data, "Jan".data),
   ("fev".data, "Feb".data),
   ("mar".data, "Mar".data),
   ("abr".data, "Apr".data),
   ("mai".data, "May".data),
   ("jun".data, "Jun".data),
   ("jul".data, "Jul".data),
   ("ago".data, "Aug".data),
   ("set".data, "Sep".data),
   ("out".data, "Oct".data),
   ("nov".data, "Nov".data),
   ("dez".data, "Dec".data)]

/-- Literal key match: `matchKey k cs = some rest` iff `cs = k ++ rest`. -/
def matchKey : List Char → List Char → Option (List Char)
  | [], rest => some rest
  | _ :: _, [] => none
  | k :: ks, c :: cs => if c == k then matchKey ks cs else none

/-- The trailing `\b` of the month pattern: the character after the match
(if any) is not a word character. -/
def boundaryAfter : List Char → Bool
  | [] => true
  | c :: _ => !isWordChar c

/-- One attempt of the regex alternation at the current position: the
alternatives are tried in pattern order, the first whose literal matches
with a word boundary after it wins. -/
def tryKeys : List (List Char × List Char) → List Char → Option (List Char × List Char)
  | [], _ => none
  | (k, r) :: rest, cs =>
    match matchKey k cs with
    | some tail => if boundaryAfter tail then some (r, tail) else tryKeys rest cs
    | none => tryKeys rest cs

theorem matchKey_length :
    ∀ (k cs tail : List Char), matchKey k cs = some tail → tail.length + k.length = cs.length := by
  intro k
  induction k with
  | nil =>
    intro cs tail h
    simp [matchKey] at h
    subst h
    simp
  | cons a ks ih =>
    intro cs tail h
    cases cs with
    | nil => simp [matchKey] at h
    | cons c cs2 =>
      by_cases hc : (c == a) = true
      · simp [matchKey, hc] at h
        have := ih cs2 tail h
        simp [List.length_cons]
        omega
      · simp [matchKey, hc] at h

theorem tryKeys_length (ks : List (List Char × List Char))
    (hne : ∀ p ∈ ks, p.1 ≠ []) :
    ∀ cs r tail, tryKeys ks cs = some (r, tail) → tail.length < cs.length := by
  induction ks with
  | nil => intro cs r tail h; simp [tryKeys] at h
  | cons p ks ih =>
    intro cs r tail h
    obtain ⟨k, rep⟩ := p
    rw [tryKeys] at h
    cases hm : matchKey k cs with
    | some t =>
      simp only [hm] at h
      by_cases hb : boundaryAfter t = true
      · rw [if_pos hb] at h
        have ht : t = tail := congrArg Prod.snd (Option.some.inj h)
        subst ht
        have hlen := matchKey_length k cs t hm
        have hk : k ≠ [] := hne (k, rep) (List.mem_cons_self _ _)
        have : 0 < k.length := List.length_pos.mpr hk
        omega
      · rw [if_neg hb] at h
        exact ih (fun q hq => hne q (List.mem_cons_of_mem _ hq)) cs r tail h
    | none =>
      simp only [hm] at h
      exact ih (fun q hq => hne q (List.mem_cons_of_mem _ hq)) cs r tail h

theorem monthTable_keys_ne : ∀ p ∈ monthTable, p.1 ≠ [] := by decide

/-- The scan of `re.sub(months_pattern, repl, s0)` (`date_utils.py` lines
74-81): positions are tried left to right; the leading `\b` holds exactly
when the previous character (tracked in `prevWord`) is not a word character
while the key's first character is; after a replacement the scan resumes
right after the matched text, whose last character is a word character.
`fuel` only bounds the recursion; every match consumes at least one
character, so `fuel = cs.length` never runs out. -/
def replaceMonthsGo (fuel : Nat) (prevWord : Bool) (cs : List Char) : List Char :=
  match fuel, cs with
  | 0, cs => cs
  | _ + 1, [] => []
  | f + 1, c :: rest =>
    if prevWord then c :: replaceMonthsGo f (isWordChar c) rest
    else
      match tryKeys monthTable (c :: rest) with
      | some (r, tail) => r ++ replaceMonthsGo f true tail
      | none => c :: replaceMonthsGo f (isWordChar c) rest

/-- Month replacement on the normalized (stripped, lowercased,
weekday-free) string. -/
def replaceMonths (cs : List Char) : List Char := replaceMonthsGo cs.length false cs

/-- The weekday-removal `re.sub(r'^[a-z]{2,9},?\s*', '', s0)` of
`date_utils.py` line 72: at the start of the string, a greedy run of 2-9
lowercase ASCII letters, an optional comma, then greedy whitespace. -/
def removeWeekday (s : List Char) : List Char :=
  let run := s.takeWhile isLowerAlpha
  if run.length < 2 then s
  else
    let k := min run.length 9
    let rest := s.drop k
    let rest2 :=
      match rest with
      | ',' :: r => r
      | r => r
    rest2.dropWhile pyIsSpace

/-- `pt_to_en_date_string` (`date_utils.py` lines 58-86): falsy input is
returned as is; otherwise strip, remove diacritics, lowercase, drop a
leading weekday token, and transliterate whole-word month names. -/
def pt_to_en_date_string (s : List Char) : List Char :=
  if s = [] then s
  else
    let s1 := (stripAccents (stripWs s)).map toLowerPy
    replaceMonths (removeWeekday s1)

/-! ### The stdlib date parser: email._parseaddr._parsedate_tz -/

/-- The result row of `_parsedate_tz` (year, month, day, time, timezone
offset in seconds; `none` offset = naive). -/
structure TimeTuple where
  yy : Int
  mon : Nat
  dd : Int
  thh : Int
  tmm : Int
  tss : Int
  tzoffset : Option Int
  deriving Repr, DecidableEq

/-- `email._parseaddr._monthnames`. -/
def monthnames : List (List Char) :=
  ["jan".data, "feb".data, "mar".data, "apr".data, "may".data, "jun".data,
   "jul".data, "aug".data, "sep".data, "oct".data, "nov".data, "dec".data,
   "january".data, "february".data, "march".data, "april".data, "may".data,
   "june".data, "july".data, "august".data, "september".data, "october".data,
   "november".data, "december".data]

/-- `email._parseaddr._daynames`. -/
def daynames : List (List Char) :=
  ["mon".data, "tue".data, "wed".data, "thu".data, "fri".data, "sat".data,
   "sun".data]

/-- `email._parseaddr._timezones`. -/
def timezoneTable : List (List Char × Int) :=
  [("UT".data, 0), ("UTC".data, 0), ("GMT".data, 0), ("Z".data, 0),
   ("AST".data, -400), ("ADT".data, -300), ("EST".data, -500), ("EDT".data, -400),
   ("CST".data, -600), ("CDT".data, -500), ("MST".data, -700), ("MDT".data, -600),
   ("PST".data, -800), ("PDT".data, -700)]

def lookupTz (t : List Char) : Option Int :=
  (timezoneTable.find? (fun p => p.1 == t)).map (fun p => p.2)

/-- Day-of-week handling at the head of the token list: drop a token ending
in a comma or equal (lowercased) to a day name; otherwise cut the first
token after its last comma. -/
def dropDayname (data : List (List Char)) : List (List Char) :=
  match data with
  | [] => []
  | d0 :: rest =>
    if (d0.getLast? == some ',') || (d0.map toLowerPy) ∈ daynames then rest
    else
      match rfindChar ',' d0 with
      | some i => (d0.drop (i + 1)) :: rest
      | none => d0 :: rest

/-- The RFC 850 repair: a 3-token date has its first token split on `-`. -/
def fixRfc850 (data : List (List Char)) : List (List Char) :=
  if data.length == 3 then
    match data with
    | d0 :: rest =>
      let stuff := splitOnChar '-' d0
      if stuff.length == 3 then stuff ++ rest else d0 :: rest
    | [] => []
  else data

/-- The 4-token repair: split a trailing `time+zone` token at the first
`+` (or, failing that, `-`) when it is not at position 0; otherwise append
a dummy empty timezone token. -/
def fixTzToken (data : List (List Char)) : List (List Char) :=
  if data.length == 4 then
    match data.get? 3 with
    | some s =>
      let i : Option Nat :=
        match s.findIdx? (fun c => c == '+') with
        | some i => some i
        | none => s.findIdx? (fun c => c == '-')
      match i with
      | some i =>
        if i > 0 then data.take 3 ++ [s.take i, s.drop i] else data ++ [[]]
      | none => data ++ [[]]
    | none => data
  else data

/-- The time-of-day split: `hh:mm`, `hh:mm:ss`, or the non-compliant
`hh.mm` / `hh.mm.ss`. -/
def timeParts (tm : List Char) : Option (List Char × List Char × List Char) :=
  match splitOnChar ':' tm with
  | [thh, tmm] => some (thh, tmm, ['0'])
  | [thh, tmm, tss] => some (thh, tmm, tss)
  | [t0] =>
    if t0.contains '.' then
      match splitOnChar '.' t0 with
      | [thh, tmm] => some (thh, tmm, ['0'])
      | [thh, tmm, tss] => some (thh, tmm, tss)
      | _ => none
    else none
  | _ => none

/-- Timezone resolution: the name table, else `int(tz)` (where `-0000`
becomes an unknown zone), then conversion of an `hhmm` offset into
seconds (skipped for a falsy zero offset). -/
def computeTz (tz : List Char) : Option Int :=
  let tzU := tz.map toUpperPy
  let t0 : Option Int :=
    match lookupTz tzU with
    | some v => some v
    | none =>
      match parseIntPy tzU with
      | some v => if v = 0 ∧ tzU.head? = some '-' then none else some v
      | none => none
  match t0 with
  | none => none
  | some v =>
    if v = 0 then some 0
    else
      let a := v.natAbs
      let secs : Int := Int.ofNat ((a / 100) * 3600 + (a % 100) * 60)
      some (if v < 0 then -secs else secs)

/-- The field-munging core of `_parsedate_tz` once the five tokens
`[dd, mm, yy, tm, tz]` are in hand. Positions where the Python indexes a
(provably or possibly) empty token and would raise IndexError are `none`
here — identical behaviour for every caller, which wraps the call in
`try/except`. -/
def parsedateCore (dd0 mm0 yy0 tm0 tz0 : List Char) : Option TimeTuple :=
  if dd0 = [] ∨ mm0 = [] ∨ yy0 = [] then none
  else
    let mm1 := mm0.map toLowerPy
    let dm : List Char × List Char :=
      if mm1 ∈ monthnames then (dd0, mm1) else (mm1, dd0.map toLowerPy)
    let dd1 := dm.1
    let mm2 := dm.2
    if mm2 ∉ monthnames then none
    else
      let mon0 := monthnames.indexOf mm2 + 1
      let mon := if mon0 > 12 then mon0 - 12 else mon0
      let dd2 := if dd1.getLast? == some ',' then dd1.dropLast else dd1
      let yt : List Char × List Char :=
        match yy0.findIdx? (fun c => c == ':') with
        | some i => if i > 0 then (tm0, yy0) else (yy0, tm0)
        | none => (yy0, tm0)
      let yy1 := yt.1
      let tm1 := yt.2
      let yyP : Option (List Char) :=
        if yy1.getLast? == some ',' then
          let y := yy1.dropLast
          if y = [] then none else some y
        else some yy1
      match yyP with
      | none => none
      | some yy2 =>
        match yy2.head? with
        | none => none
        | some y0 =>
          let ytz : List Char × List Char :=
            if isDigitCh y0 then (yy2, tz0) else (tz0, yy2)
          let yy3 := ytz.1
          let tz1 := ytz.2
          let tm2 := if tm1.getLast? == some ',' then tm1.dropLast else tm1
          match timeParts tm2 with
          | none => none
          | some (thh, tmm, tss) =>
            match parseIntPy yy3, parseIntPy dd2, parseIntPy thh,
                parseIntPy tmm, parseIntPy tss with
            | some yyI, some ddI, some thhI, some tmmI, some tssI =>
              let yyN := if yyI < 100 then (if yyI > 68 then yyI + 1900 else yyI + 2000) else yyI
              some ⟨yyN, mon, ddI, thhI, tmmI, tssI, computeTz tz1⟩
            | _, _, _, _, _ => none

/-- `email._parseaddr._parsedate_tz` (CPython 3.11). -/
def parsedate_tz (s : List Char) : Option TimeTuple :=
  if s = [] then none
  else
    match fixTzToken (fixRfc850 (dropDayname (splitWs s))) with
    | dd :: mm :: yy :: tm :: tz :: _ => parsedateCore dd mm yy tm tz
    | _ => none

/-! ### datetime construction and the two repository entry points -/

/-- A `datetime.datetime` as the repository consumes it: calendar fields
plus a utcoffset in seconds (`none` = naive). -/
structure PyDateTime where
  year : Int
  month : Nat
  day : Int
  hour : Int
  minute : Int
  second : Int
  tz : Option Int
  deriving Repr, DecidableEq

def isLeapYear (y : Int) : Bool :=
  y % 4 == 0 && (y % 100 != 0 || y % 400 == 0)

def daysInMonth (y : Int) (m : Nat) : Int :=
  if m == 2 then (if isLeapYear y then 29 else 28)
  else if m == 4 || m == 6 || m == 9 || m == 11 then 30
  else 31

/-- The `datetime.datetime(...)` constructor with its range checks
(ValueError becomes `none`). -/
def mkPyDateTime (y : Int) (mon : Nat) (d h mi s : Int) (tz : Option Int) :
    Option PyDateTime :=
  if 1 ≤ y ∧ y ≤ 9999 ∧ 1 ≤ mon ∧ mon ≤ 12 ∧ 1 ≤ d ∧ d ≤ daysInMonth y mon
      ∧ 0 ≤ h ∧ h ≤ 23 ∧ 0 ≤ mi ∧ mi ≤ 59 ∧ 0 ≤ s ∧ s ≤ 59 then
    some ⟨y, mon, d, h, mi, s, tz⟩
  else none

/-- `email.utils.parsedate_to_datetime`: its ValueError (no parse, or an
out-of-range field, or a `timezone()` offset not strictly within 24 hours)
is `none`. -/
def parsedate_to_datetime (s : List Char) : Option PyDateTime :=
  match parsedate_tz s with
  | none => none
  | some t =>
    match t.tzoffset with
    | none => mkPyDateTime t.yy t.mon t.dd t.thh t.tmm t.tss none
    | some off =>
      if -86400 < off ∧ off < 86400 then
        mkPyDateTime t.yy t.mon t.dd t.thh t.tmm t.tss (some off)
      else none

/-- `dt.replace(tzinfo=timezone.utc)` applied when the parsed value is
naive (`date_utils.py` lines 102-103 and 113-114). -/
def ensureUtc (dt : PyDateTime) : PyDateTime :=
  match dt.tz with
  | none => { dt with tz := some 0 }
  | some _ => dt

/-- `parse_rss_date_to_dt` (`date_utils.py` lines 89-130): direct parse,
then parse of the transliterated string, then the optional dateutil
fallback `du` (`none` models the dependency being absent; any result is
UTC-defaulted like the others). Every failure path returns `none`. -/
def parse_rss_date_to_dt (du : Option (List Char → Option PyDateTime))
    (s : List Char) : Option PyDateTime :=
  if s = [] then none
  else
    match parsedate_to_datetime s with
    | some dt => some (ensureUtc dt)
    | none =>
      match parsedate_to_datetime (pt_to_en_date_string s) with
      | some dt => some (ensureUtc dt)
      | none =>
        match du with
        | none => none
        | some f =>
          match f (pt_to_en_date_string s) with
          | some dt => some (ensureUtc dt)
          | none => none

/-! ### Specification-side characterization of the month replacement

    `tokenMap` is the spec's reading of "case-insensitive and whole-word
    only": the input decomposes into maximal word-character runs separated
    by non-word characters; a run equal to a dictionary key is replaced by
    its English abbreviation, every other run — in particular one that
    merely contains a key as a proper substring — and every separator is
    kept verbatim. -/

/-- Dictionary lookup on a whole word: the replacement when the word is a
key, the word itself otherwise. -/
def lookupRepl (w : List Char) : List Char :=
  match monthTable.find? (fun p => p.1 == w) with
  | some p => p.2
  | none => w

theorem length_dropWhile_le (p : Char → Bool) (l : List Char) :
    (l.dropWhile p).length ≤ l.length := by
  induction l with
  | nil => simp [List.dropWhile]
  | cons a l ih =>
    by_cases h : p a = true
    · rw [List.dropWhile_cons, if_pos h]
      exact le_trans ih (by simp)
    · rw [List.dropWhile_cons, if_neg h]

/-- The per-word-token reading of the month regex (`fuel` bounds the
recursion as in `replaceMonthsGo`; `fuel = cs.length` never runs out). -/
def tokenMapGo (fuel : Nat) (cs : List Char) : List Char :=
  match fuel, cs with
  | 0, cs => cs
  | _ + 1, [] => []
  | f + 1, c :: rest =>
    if isWordChar c then
      lookupRepl (c :: rest.takeWhile isWordChar) ++ tokenMapGo f (rest.dropWhile isWordChar)
    else c :: tokenMapGo f rest

/-- The per-word-token reading of the month regex. -/
def tokenMap (cs : List Char) : List Char := tokenMapGo cs.length cs

theorem tokenMapGo_fuel (f1 : Nat) :
    ∀ (f2 : Nat) (cs : List Char), cs.length ≤ f1 → cs.length ≤ f2 →
      tokenMapGo f1 cs = tokenMapGo f2 cs := by
  induction f1 with
  | zero =>
    intro f2 cs h1 _
    have hnil : cs = [] := List.eq_nil_of_length_eq_zero (Nat.le_zero.mp h1)
    subst hnil
    cases f2 <;> rfl
  | succ g ih =>
    intro f2 cs h1 h2
    cases cs with
    | nil => cases f2 <;> rfl
    | cons c rest =>
      cases f2 with
      | zero => simp at h2
      | succ g2 =>
        have hr1 : rest.length ≤ g := by simpa using h1
        have hr2 : rest.length ≤ g2 := by simpa using h2
        have hd1 : (rest.dropWhile isWordChar).length ≤ g :=
          le_trans (length_dropWhile_le _ _) hr1
        have hd2 : (rest.dropWhile isWordChar).length ≤ g2 :=
          le_trans (length_dropWhile_le _ _) hr2
        show (if isWordChar c then
            lookupRepl (c :: rest.takeWhile isWordChar) ++ tokenMapGo g (rest.dropWhile isWordChar)
          else c :: tokenMapGo g rest)
          = (if isWordChar c then
            lookupRepl (c :: rest.takeWhile isWordChar) ++ tokenMapGo g2 (rest.dropWhile isWordChar)
          else c :: tokenMapGo g2 rest)
        rw [ih g2 (rest.dropWhile isWordChar) hd1 hd2, ih g2 rest hr1 hr2]

theorem tokenMap_nil : tokenMap [] = [] := rfl

theorem tokenMap_cons (c : Char) (rest : List Char) :
    tokenMap (c :: rest) =
      if isWordChar c then
        lookupRepl (c :: rest.takeWhile isWordChar) ++ tokenMap (rest.dropWhile isWordChar)
      else c :: tokenMap rest := by
  show (if isWordChar c then
      lookupRepl (c :: rest.takeWhile isWordChar)
        ++ tokenMapGo rest.length (rest.dropWhile isWordChar)
    else c :: tokenMapGo rest.length rest) = _
  rw [tokenMapGo_fuel rest.length (rest.dropWhile isWordChar).length
    (rest.dropWhile isWordChar) (length_dropWhile_le _ _) (le_refl _)]
  rfl

theorem matchKey_eq_some_iff (k : List Char) :
    ∀ cs t, matchKey k cs = some t ↔ cs = k ++ t := by
  induction k with
  | nil => intro cs t; simp [matchKey]
  | cons a ks ih =>
    intro cs t
    cases cs with
    | nil => simp [matchKey]
    | cons c cs2 =>
      by_cases hc : c = a
      · subst hc
        simp [matchKey, ih]
      · simp [matchKey, hc]

theorem boundaryAfter_dropWhile (l : List Char) :
    boundaryAfter (l.dropWhile isWordChar) = true := by
  induction l with
  | nil => rfl
  | cons a l ih =>
    by_cases h : isWordChar a = true
    · rw [List.dropWhile_cons, if_pos h]; exact ih
    · rw [List.dropWhile_cons, if_neg h]
      simp [boundaryAfter, eq_false_of_not_eq_true h]

theorem wordRun_decomp (k : List Char) :
    ∀ tail, k.all isWordChar = true → boundaryAfter tail = true →
      (k ++ tail).takeWhile isWordChar = k ∧ (k ++ tail).dropWhile isWordChar = tail := by
  induction k with
  | nil =>
    intro tail _ hb
    cases tail with
    | nil => simp
    | cons c t =>
      have hc : isWordChar c = false := by
        simpa [boundaryAfter] using hb
      simp [List.takeWhile_cons, List.dropWhile_cons, hc]
  | cons a k2 ih =>
    intro tail hall hb
    rw [List.all_cons, Bool.and_eq_true] at hall
    obtain ⟨ha, hk2⟩ := hall
    have h2 := ih tail hk2 hb
    constructor
    · rw [List.cons_append, List.takeWhile_cons, if_pos ha, h2.1]
    · rw [List.cons_append, List.dropWhile_cons, if_pos ha, h2.2]

theorem monthTable_wf : ∀ p ∈ monthTable, p.1 ≠ [] ∧ p.1.all isWordChar = true := by
  decide

theorem tryKeys_eq_find (ks : List (List Char × List Char))
    (hwf : ∀ p ∈ ks, p.1 ≠ [] ∧ p.1.all isWordChar = true) (cs : List Char) :
    tryKeys ks cs =
      match ks.find? (fun p => p.1 == cs.takeWhile isWordChar) with
      | some p => some (p.2, cs.dropWhile isWordChar)
      | none => none := by
  induction ks with
  | nil => simp [tryKeys]
  | cons q ks ih =>
    obtain ⟨k, r⟩ := q
    have hwfk := hwf (k, r) (List.mem_cons_self _ _)
    have hwfr : ∀ p ∈ ks, p.1 ≠ [] ∧ p.1.all isWordChar = true :=
      fun p hp => hwf p (List.mem_cons_of_mem _ hp)
    rw [tryKeys]
    by_cases hkey : k = cs.takeWhile isWordChar
    · have hcs : cs = k ++ cs.dropWhile isWordChar := by
        conv_lhs => rw [← List.takeWhile_append_dropWhile (p := isWordChar) (l := cs)]
        rw [hkey]
      have hm : matchKey k cs = some (cs.dropWhile isWordChar) :=
        (matchKey_eq_some_iff k cs _).mpr hcs
      have hbd := boundaryAfter_dropWhile cs
      rw [List.find?_cons_of_pos _ (by simp [hkey])]
      simp only [hm, hbd, if_true]
    · have hstep : (match matchKey k cs with
          | some tail => if boundaryAfter tail then some (r, tail) else tryKeys ks cs
          | none => tryKeys ks cs) = tryKeys ks cs := by
        cases hm : matchKey k cs with
        | none => rfl
        | some t =>
          show (if boundaryAfter t = true then some (r, t) else tryKeys ks cs)
              = tryKeys ks cs
          have hcs := (matchKey_eq_some_iff k cs t).mp hm
          by_cases hb : boundaryAfter t = true
          · exfalso
            have := (wordRun_decomp k t hwfk.2 hb).1
            rw [← hcs] at this
            exact hkey this.symm
          · rw [if_neg hb]
      rw [hstep, ih hwfr, List.find?_cons_of_neg _ (by simp [hkey])]

theorem replaceMonthsGo_fuel (f1 : Nat) :
    ∀ (f2 : Nat) (b : Bool) (cs : List Char), cs.length ≤ f1 → cs.length ≤ f2 →
      replaceMonthsGo f1 b cs = replaceMonthsGo f2 b cs := by
  induction f1 with
  | zero =>
    intro f2 b cs h1 _
    have hnil : cs = [] := List.eq_nil_of_length_eq_zero (Nat.le_zero.mp h1)
    subst hnil
    cases f2 <;> rfl
  | succ g ih =>
    intro f2 b cs h1 h2
    cases cs with
    | nil => cases f2 <;> rfl
    | cons c rest =>
      cases f2 with
      | zero => simp at h2
      | succ g2 =>
        have hr1 : rest.length ≤ g := by simpa using h1
        have hr2 : rest.length ≤ g2 := by simpa using h2
        cases b with
        | true =>
          show c :: replaceMonthsGo g (isWordChar c) rest
              = c :: replaceMonthsGo g2 (isWordChar c) rest
          rw [ih g2 (isWordChar c) rest hr1 hr2]
        | false =>
          show (match tryKeys monthTable (c :: rest) with
              | some (r, tail) => r ++ replaceMonthsGo g true tail
              | none => c :: replaceMonthsGo g (isWordChar c) rest)
            = (match tryKeys monthTable (c :: rest) with
              | some (r, tail) => r ++ replaceMonthsGo g2 true tail
              | none => c :: replaceMonthsGo g2 (isWordChar c) rest)
          cases htk : tryKeys monthTable (c :: rest) with
          | some p =>
            obtain ⟨r, tail⟩ := p
            have hlt := tryKeys_length monthTable monthTable_keys_ne (c :: rest) r tail htk
            have ht1 : tail.length ≤ g := by simp at hlt; omega
            have ht2 : tail.length ≤ g2 := by simp at hlt; omega
            simp only [ih g2 true tail ht1 ht2]
          | none => simp only [ih g2 (isWordChar c) rest hr1 hr2]

theorem replaceMonthsGo_word_walk (w : List Char) :
    ∀ (f : Nat) (xs : List Char), w.all isWordChar = true → w.length + xs.length ≤ f →
      replaceMonthsGo f true (w ++ xs) = w ++ replaceMonthsGo f true xs := by
  induction w with
  | nil => intro f xs _ _; simp
  | cons a w2 ih =>
    intro f xs hall hlen
    rw [List.all_cons, Bool.and_eq_true] at hall
    obtain ⟨ha, hw2⟩ := hall
    cases f with
    | zero => simp at hlen
    | succ g =>
      have hlen2 : w2.length + xs.length ≤ g := by simp at hlen; omega
      show a :: replaceMonthsGo g (isWordChar a) (w2 ++ xs) = _
      rw [ha, ih g xs hw2 hlen2,
        replaceMonthsGo_fuel g (g + 1) true xs (by omega) (by omega)]
      rfl

theorem replaceMonthsGo_eq_tokenMap (f : Nat) :
    ∀ cs : List Char, cs.length ≤ f →
      (replaceMonthsGo f false cs = tokenMap cs)
      ∧ (boundaryAfter cs = true → replaceMonthsGo f true cs = tokenMap cs) := by
  induction f with
  | zero =>
    intro cs h
    have hnil : cs = [] := List.eq_nil_of_length_eq_zero (Nat.le_zero.mp h)
    subst hnil
    exact ⟨tokenMap_nil.symm, fun _ => tokenMap_nil.symm⟩
  | succ g ih =>
    intro cs h
    cases cs with
    | nil => exact ⟨tokenMap_nil.symm, fun _ => tokenMap_nil.symm⟩
    | cons c rest =>
      have hrest : rest.length ≤ g := by simpa using h
      have hpart2 : boundaryAfter (c :: rest) = true →
          replaceMonthsGo (g + 1) true (c :: rest) = tokenMap (c :: rest) := by
        intro hb
        have hcw : isWordChar c = false := by simpa [boundaryAfter] using hb
        show c :: replaceMonthsGo g (isWordChar c) rest = _
        rw [hcw, (ih rest hrest).1, tokenMap_cons, if_neg (by simp [hcw])]
      refine ⟨?_, hpart2⟩
      show (match tryKeys monthTable (c :: rest) with
          | some (r, tail) => r ++ replaceMonthsGo g true tail
          | none => c :: replaceMonthsGo g (isWordChar c) rest)
        = tokenMap (c :: rest)
      rw [tryKeys_eq_find monthTable monthTable_wf (c :: rest)]
      by_cases hcw : isWordChar c = true
      · have hrun : (c :: rest).takeWhile isWordChar = c :: rest.takeWhile isWordChar := by
          rw [List.takeWhile_cons, if_pos hcw]
        have hdrop : (c :: rest).dropWhile isWordChar = rest.dropWhile isWordChar := by
          rw [List.dropWhile_cons, if_pos hcw]
        have htail : (rest.dropWhile isWordChar).length ≤ g :=
          le_trans (length_dropWhile_le _ _) hrest
        have hbtail := boundaryAfter_dropWhile rest
        have hgo := (ih _ htail).2 hbtail
        rw [tokenMap_cons, if_pos hcw]
        cases hfind : monthTable.find? (fun p => p.1 == (c :: rest).takeWhile isWordChar) with
        | some p =>
          simp only [hfind, hdrop, hgo]
          rw [lookupRepl]
          rw [hrun] at hfind
          simp only [hfind]
        | none =>
          simp only [hfind]
          -- nothing matched at this position: the scan emits `c` and walks
          -- through the rest of the word run with the boundary flag set
          have hrw : rest = rest.takeWhile isWordChar ++ rest.dropWhile isWordChar :=
            (List.takeWhile_append_dropWhile (p := isWordChar) (l := rest)).symm
          have hall : (rest.takeWhile isWordChar).all isWordChar = true :=
            List.all_takeWhile
          have hlen : (rest.takeWhile isWordChar).length
              + (rest.dropWhile isWordChar).length ≤ g := by
            have := congrArg List.length hrw
            simp only [List.length_append] at this
            omega
          rw [hcw]
          conv_lhs => rw [hrw]
          rw [replaceMonthsGo_word_walk (rest.takeWhile isWordChar) g
            (rest.dropWhile isWordChar) hall hlen, hgo]
          rw [lookupRepl]
          rw [hrun] at hfind
          simp only [hfind]
          rfl
      · have hcw2 : isWordChar c = false := eq_false_of_not_eq_true hcw
        have hrun0 : (c :: rest).takeWhile isWordChar = [] := by
          rw [List.takeWhile_cons, if_neg hcw]
        have hfind : monthTable.find? (fun p => p.1 == (c :: rest).takeWhile isWordChar)
            = none := by
          rw [hrun0]
          apply List.find?_eq_none.mpr
          intro p hp
          have := (monthTable_wf p hp).1
          simp [this]
        simp only [hfind]
        rw [hcw2, (ih rest hrest).1, tokenMap_cons, if_neg (by simp [hcw2])]

/-- The scan of the month regex agrees with the per-word-token map. -/
theorem replaceMonths_eq_tokenMap (cs : List Char) : replaceMonths cs = tokenMap cs :=
  (replaceMonthsGo_eq_tokenMap cs.length cs (le_refl _)).1

/-! ## Date claims -/

/-- The supported Portuguese month names and abbreviations (the dictionary
keys, in the regex alternation order). -/
def ptMonthKeys : List (List Char) := monthTable.map (fun p => p.1)

/-- The date shape of the spec's example, with the month name spliced in:
`Qua, {month} 26 2025 08:25:00`. -/
def ptFrame (k : List Char) : List Char :=
  "Qua, ".data ++ k ++ " 26 2025 08:25:00".data

/-- The equivalent English string: English weekday and month in the same
frame. -/
def enFrame (m : List Char) : List Char :=
  "Wed, ".data ++ m ++ " 26 2025 08:25:00".data

/-- Uppercasing used only to build test inputs (ASCII plus the `ç` that
occurs in the keys). -/
def upperPy (c : Char) : Char :=
  if 'a' ≤ c && c ≤ 'z' then Char.ofNat (c.toNat - 32)
  else if c == 'ç' then 'Ç' else c

/-- C7. For every supported Portuguese month name or abbreviation,
normalization followed by parsing yields the same UTC instant as parsing
the equivalent English string (any dateutil fallback `du` is irrelevant:
both parses already succeed); in particular
`parse_rss_date_to_dt "Qua, nov 26 2025 08:25:00"` is the instant
2025-11-26T08:25:00+00:00. -/
theorem date_translit_c7 (du : Option (List Char → Option PyDateTime))
    (k : List Char) (hk : k ∈ ptMonthKeys) :
    parse_rss_date_to_dt du (ptFrame k)
      = parse_rss_date_to_dt du (enFrame (lookupRepl k))
    ∧ parse_rss_date_to_dt du ("Qua, nov 26 2025 08:25:00".data)
      = some ⟨2025, 11, 26, 8, 25, 0, some 0⟩ := by
  constructor
  · simp only [ptMonthKeys, monthTable, List.map] at hk
    fin_cases hk <;> rfl
  · rfl

/-- Witness for C7 at the spec's own example month. -/
theorem date_translit_c7_witness :
    parse_rss_date_to_dt none (ptFrame ("nov".data))
      = parse_rss_date_to_dt none (enFrame (lookupRepl ("nov".data))) :=
  (date_translit_c7 none ("nov".data) (by decide)).1

/-- C8. Month replacement is whole-word only and case-insensitive: the
regex scan coincides with the per-maximal-word-run map (a run equal to a
key becomes its English abbreviation, every other run — in particular one
containing a key as a proper substring — and every separator is kept
verbatim); a word that is not exactly a key is never rewritten; casing of
the month name does not change the result; and the spec's examples
"marcos" and "janice" pass through unchanged. -/
theorem month_replace_wholeword_c8 :
    (∀ cs : List Char, replaceMonths cs = tokenMap cs)
    ∧ (∀ w : List Char, (∀ p ∈ monthTable, p.1 ≠ w) → lookupRepl w = w)
    ∧ (∀ k, k ∈ ptMonthKeys →
        pt_to_en_date_string ("26 ".data ++ k.map upperPy ++ " 2025".data)
          = pt_to_en_date_string ("26 ".data ++ k ++ " 2025".data))
    ∧ pt_to_en_date_string ("26 marcos 2025".data) = "26 marcos 2025".data
    ∧ pt_to_en_date_string ("26 janice 2025".data) = "26 janice 2025".data := by
  refine ⟨replaceMonths_eq_tokenMap, ?_, ?_, rfl, rfl⟩
  · intro w hw
    rw [lookupRepl]
    have hfind : monthTable.find? (fun p => p.1 == w) = none :=
      List.find?_eq_none.mpr (fun p hp => by simp [hw p hp])
    rw [hfind]
  · intro k hk
    simp only [ptMonthKeys, monthTable, List.map] at hk
    fin_cases hk <;> rfl

/-- Witness for C8: an uppercase month name is replaced exactly like the
lowercase one. -/
theorem month_replace_wholeword_c8_witness :
    pt_to_en_date_string ("26 ".data ++ ("mar".data).map upperPy ++ " 2025".data)
      = pt_to_en_date_string ("26 ".data ++ "mar".data ++ " 2025".data) :=
  month_replace_wholeword_c8.2.2.1 ("mar".data) (by decide)

end DireitoNews
